import Mathlib

/- Shallow embedding of the galaxy_codex extraction scripts
   (src/sources/bin/shared.py and src/sources/bin/extract_galaxy_tools.py)
   and proofs of the specified properties of their functions.

   Python strings are modelled as Lean String where only equality matters and
   as List Char where character-level operations (split, indexing, ordering)
   matter; file and network effects are modelled by passing the observable
   content (parsed JSON values, per-attempt request outcomes) explicitly. -/

namespace GalaxyCodex

/-! Python string primitives used by the embedded functions. -/

/-- Whitespace characters stripped by Python str.rstrip(). -/
def isPyWhitespace (c : Char) : Bool :=
  c = ' ' || c = '\t' || c = '\n' || c = '\r' || c = '\x0b' || c = '\x0c'

/-- Python str.rstrip(): remove trailing whitespace characters. -/
def pyRstrip (s : String) : String :=
  String.mk ((s.data.reverse.dropWhile isPyWhitespace).reverse)

/-- Python str.split(sep) for a one-character separator, on strings as
    character lists: "a/b".split("/") gives the chunks between separators,
    with empty chunks kept and the empty string splitting to [""]. -/
def pySplit (c : Char) : List Char → List (List Char)
  | [] => [[]]
  | x :: xs =>
    if x = c then [] :: pySplit c xs
    else
      match pySplit c xs with
      | [] => [[x]]
      | y :: ys => (x :: y) :: ys

/-- Python negative indexing l[-k] for k at least 1; none models the
    IndexError raised when the list is shorter than k. -/
def pyNegIdx {α : Type} (l : List α) (k : Nat) : Option α :=
  if 1 ≤ k ∧ k ≤ l.length then l.get? (l.length - k) else none

/-! Embedding of shared.format_list_column (claim C7). -/

/-- Function shared.format_list_column: a pandas column (a list of cells, each
    cell a list) is mapped cell-wise to the join of the str() of the cell's
    elements with the separator ", " (a comma followed by a space), mirroring
    col.apply of a ", "-join over str(i) for i in x. -/
def format_list_column (col : List (List String)) : List String :=
  col.map (fun x => String.intercalate ", " (x.map (fun i => toString i)))

/-- Comma-joined string of a list's elements, written as the specification
    reads: the elements in order, separated by a comma and a space. -/
def comma_join_spec : List String → String
  | [] => ""
  | [a] => a
  | a :: b :: rest => a ++ ", " ++ comma_join_spec (b :: rest)

/-! Embedding of shared.read_file (claim C8). -/

/-- File system model for read_file: a path maps to the raw lines that
    Python readlines() returns when the file exists, and to none when no
    file with that name exists. -/
abbrev FileSystem := String → Option (List String)

/-- Function shared.read_file: an optional file with one element per line; a
    missing path (None) or a path that is not a file yields the empty list,
    otherwise every line is returned with x.rstrip() applied. -/
def read_file (filepath : Option String) (fs : FileSystem) : List String :=
  match filepath with
  | none => []
  | some p =>
    match fs p with
    | some lines => lines.map pyRstrip
    | none => []

/-! Embedding of shared.export_to_json and shared.load_json (claim C5). -/

/-- JSON-representable attribute value of one suite dictionary: a string, a
    list of strings (default=list encodes sets as lists), or a boolean. -/
inductive AttrVal
  | str (v : List Char)
  | list (v : List (List Char))
  | bool (v : Bool)
deriving DecidableEq

/-- Suite dictionary: the association list from attribute names to values
    that json.dump writes and json.load reads for one suite entry. -/
abbrev SuiteDict := List (List Char × AttrVal)

/-- Lexicographic order on Python strings by code point, the key order used
    by json.dump(sort_keys=True). -/
def keyLe : List Char → List Char → Bool
  | [], _ => true
  | _ :: _, [] => false
  | a :: as, b :: bs => if a = b then keyLe as bs else decide (a < b)

/-- Keys of one dictionary in sorted order, as json.dump with sort_keys=True
    writes the dictionary. -/
def sortDictKeys (d : SuiteDict) : SuiteDict :=
  List.insertionSort (fun a b => keyLe a.1 b.1 = true) d

/-- Function shared.export_to_json: json.dump(data, f, indent=4,
    sort_keys=sort_keys, default=list). The written file is modelled by its
    parsed JSON content: every suite dictionary is emitted with its keys in
    sorted order when sort_keys is true (the default), and indentation does
    not affect the parsed content. -/
def export_to_json (data : List SuiteDict) (sort_keys : Bool) : List SuiteDict :=
  if sort_keys then data.map sortDictKeys else data

/-- Function shared.load_json: json.load of a file returns exactly the parsed
    JSON content of that file, keys in file order. -/
def load_json (file : List SuiteDict) : List SuiteDict := file

/-! Embedding of shared.get_request_json (claim C2). -/

/-- Outcome of one requests.get attempt inside get_request_json: a JSON body,
    a ConnectionError, another RequestException, or a body that is not JSON. -/
inductive ReqOutcome
  | success (json : List Char)
  | connError
  | reqError
  | jsonError
deriving DecidableEq

/-- Result of get_request_json: the returned JSON, the exception escaping the
    call, or the final return of an empty dictionary. -/
inductive GetResult
  | ok (json : List Char)
  | connErrorRaised
  | systemExit
  | valueErrorRaised
  | emptyDict
deriving DecidableEq

/-- While-loop of shared.get_request_json. The network is modelled by the
    outcome of each attempt index; sleeps records the delays slept so far, so
    the returned list is the full sequence of time.sleep(delay) calls. -/
def get_request_json_loop (net : Nat → ReqOutcome) (retries : Nat) (delay : ℚ)
    (attempt : Nat) (sleeps : List ℚ) : GetResult × List ℚ :=
  if h : attempt < retries then
    match net attempt with
    | ReqOutcome.success j => (GetResult.ok j, sleeps)
    | ReqOutcome.connError =>
      if attempt + 1 = retries then (GetResult.connErrorRaised, sleeps)
      else get_request_json_loop net retries delay (attempt + 1) (sleeps ++ [delay])
    | ReqOutcome.reqError => (GetResult.systemExit, sleeps)
    | ReqOutcome.jsonError => (GetResult.valueErrorRaised, sleeps)
  else (GetResult.emptyDict, sleeps)
termination_by retries - attempt
decreasing_by omega

/-- Function shared.get_request_json, whose default arguments are retries=3
    and delay=2.0: attempt starts at 0 and no sleep has happened yet. -/
def get_request_json (net : Nat → ReqOutcome) (retries : Nat) (delay : ℚ) :
    GetResult × List ℚ :=
  get_request_json_loop net retries delay 0 []

/-! Embedding of extract_galaxy_tools.get_all_installed_tool_ids_on_server
    (claim C3). -/

/-- Result of the requests.get call in get_all_installed_tool_ids_on_server:
    the server is unreachable or answers with an HTTP error status, the body
    is not valid JSON, or it is a JSON list of tool dictionaries, each
    carrying its id field when present. -/
inductive ServerQueryResult
  | unreachable
  | badJson
  | ok (tool_dict_list : List (Option (List Char)))

/-- List comprehension over the tool dictionaries: collect every id field in
    order, none when some dictionary has no id key (a KeyError). -/
def collectIds : List (Option (List Char)) → Option (List (List Char))
  | [] => some []
  | none :: _ => none
  | some tid :: rest => (collectIds rest).map (fun tids => tid :: tids)

/-- Function extract_galaxy_tools.get_all_installed_tool_ids_on_server: the
    try block queries the tool listing and extracts every id field; any
    exception (unreachable server, raise_for_status, invalid JSON, missing
    id key) is caught and the empty list is returned. -/
def get_all_installed_tool_ids_on_server (resp : ServerQueryResult) : List (List Char) :=
  match resp with
  | ServerQueryResult.unreachable => []
  | ServerQueryResult.badJson => []
  | ServerQueryResult.ok tool_dict_list =>
    match collectIds tool_dict_list with
    | some tools => tools
    | none => []

/-! Embedding of shared.reduce_ontology_terms (claim C1). -/

/-- Interface of the owlready2 ontology objects used by
    reduce_ontology_terms: search_one finds the class with a given label,
    subclasses lists the subclasses of a class, and label gives the primary
    label (label[0]) of a class. -/
structure Ontology (C : Type) where
  search_one : String → Option C
  subclasses : C → List C
  label : C → String

/-- Intermediate check_classes of reduce_ontology_terms: the terms resolved
    through search_one, with failed lookups (None) removed. -/
def check_classes_of {C : Type} (terms : List String) (ontology : Ontology C) : List C :=
  (terms.map (fun term => ontology.search_one term)).filterMap (fun cla => cla)

/-- Function shared.reduce_ontology_terms: an empty list is returned as is;
    otherwise the terms are resolved to classes (dropping failed lookups), a
    class is kept only when none of its subclasses equals one of the resolved
    classes, and the kept classes are mapped back to their labels. -/
def reduce_ontology_terms {C : Type} [DecidableEq C] (terms : List String)
    (ontology : Ontology C) : List String :=
  if terms.isEmpty then terms
  else
    ((check_classes_of terms ontology).filter (fun cla =>
      ! (ontology.subclasses cla).any (fun subcla =>
          (check_classes_of terms ontology).any (fun cla2 => decide (subcla = cla2))))).map
      (fun cla => ontology.label cla)

/-! Embedding of shared.shorten_tool_id (claim C9). -/

/-- Characters of the "toolshed" substring test in shorten_tool_id. -/
def toolshedChars : List Char := "toolshed".toList

/-- Function shared.shorten_tool_id: the id is returned unchanged unless it
    contains "toolshed", in which case the split on "/" is indexed at -2
    (none models the IndexError when the split has fewer than two parts). -/
def shorten_tool_id (tool : List Char) : Option (List Char) :=
  if toolshedChars <:+: tool then pyNegIdx (pySplit '/' tool) 2
  else some tool

/-! Embedding of shared.get_github_repo (claim C10). -/

/-- Characters of the leading "https://github.com/" test in get_github_repo. -/
def githubUrlStart : List Char := "https://github.com/".toList

/-- Characters of the trailing ".git" test in get_github_repo. -/
def gitExt : List Char := ".git".toList

/-- Step url = url[:-1] if url.endswith("/") of get_github_repo. -/
def stripSlash (url : List Char) : List Char :=
  if ['/'] <:+ url then url.dropLast else url

/-- Step url = url[:-4] if url.endswith(".git") of get_github_repo. -/
def stripGit (url : List Char) : List Char :=
  if gitExt <:+ url then url.take (url.length - 4) else url

/-- Step u_split = url.split("/"); u_split[-2] and u_split[-1] name the owner
    and the repository handed to g.get_user(...).get_repo(...). -/
def githubSegments (url : List Char) : Option (List Char × List Char) :=
  match pyNegIdx (pySplit '/' url) 2, pyNegIdx (pySplit '/' url) 1 with
  | some owner, some repo => some (owner, repo)
  | _, _ => none

/-- Function shared.get_github_repo: none models the ValueError raised on a
    URL that does not start with "https://github.com/"; otherwise one
    trailing "/" is stripped (url[:-1]), then a trailing ".git" (url[:-4]),
    and the last two "/"-separated segments name the owner and repository. -/
def get_github_repo (url : List Char) : Option (List Char × List Char) :=
  if githubUrlStart <+: url then githubSegments (stripGit (stripSlash url))
  else none

/-! Models of the Tools collection stages (claims C4 and C6). The Tools class
    lives in tool.py / tools.py, which are not among the sources; only the
    call sites in extract_galaxy_tools.py are. The two stage methods are
    therefore modelled from the spec. -/

/-- Modelled from the spec: the suite record of the Tools collection (the
    missing tool.py / tools.py define it); only the fields the filter and
    curate stages read are modelled: the suite id, the ToolShed categories,
    and the bio.tools linkage (its id, the empty string when absent). -/
structure Suite where
  suite_id : String
  toolshed_categories : List String
  biotools_id : String
deriving DecidableEq

/-- Status entry of the tool_status.tsv table: keep and deprecated flags,
    keyed by suite id. -/
structure StatusEntry where
  keep : Bool
  deprecated : Bool
deriving DecidableEq

/-- Lookup of a suite id in the status table (the dictionary built by
    pd.read_csv(...).to_dict("index")). -/
def statusLookup (status : List (String × StatusEntry)) (sid : String) :
    Option StatusEntry :=
  (status.find? (fun e => decide (e.1 = sid))).map (fun e => e.2)

/-- Modelled from the spec: Tools.filter_tools (in the missing tools.py)
    keeps a suite exactly when its ToolShed categories intersect the
    allow-list and, when a status entry exists for its id, that entry's keep
    flag is true. -/
def filter_tools (suites : List Suite) (categories : List String)
    (status : List (String × StatusEntry)) : List Suite :=
  suites.filter (fun s =>
    s.toolshed_categories.any (fun c => categories.any (fun c2 => decide (c2 = c))) &&
    match statusLookup status s.suite_id with
    | none => true
    | some e => e.keep)

/-- Modelled from the spec: Tools.curate_tools (in the missing tools.py)
    partitions the collection by presence of a non-empty bio.tools linkage,
    returning the suites without bio.tools first and those with bio.tools
    second, as the curate command unpacks them. -/
def curate_tools (suites : List Suite) : List Suite × List Suite :=
  (suites.filter (fun s => decide (s.biotools_id = "")),
   suites.filter (fun s => decide (s.biotools_id ≠ "")))

/-! Concrete instances used by the witness theorems. -/

/-- Example file system holding one category file. -/
def exampleFS : FileSystem :=
  fun p => if p = "categories" then some ["genomics  ", "proteomics\t"] else none

/-- Example ontology on string-named classes: class B is the one subclass of
    class A, and every class is labelled by its own name. -/
def exampleOntology : Ontology String where
  search_one := fun t => some t
  subclasses := fun c => if c = "A" then ["B"] else []
  label := fun c => c

/-- Example suite dictionary with keys out of sorted order. -/
def exampleDict : SuiteDict :=
  [("name".toList, AttrVal.str "abc".toList),
   ("ids".toList, AttrVal.list ["t1".toList, "t2".toList]),
   ("deprecated".toList, AttrVal.bool false)]

/-! Theorems. Each claim Cn of the specification is settled by the theorem
    named after the embedded function, with helper lemmas shared between
    them. -/

theorem comma_join_spec_append_head (x y : String) (rest : List String) :
    comma_join_spec ((x ++ y) :: rest) = x ++ comma_join_spec (y :: rest) := by
  cases rest with
  | nil => rfl
  | cons c r =>
    show (x ++ y) ++ ", " ++ comma_join_spec (c :: r) =
      x ++ ((y ++ ", ") ++ comma_join_spec (c :: r))
    rw [String.append_assoc, String.append_assoc, ← String.append_assoc y]

theorem intercalate_go_eq (l : List String) :
    ∀ acc : String, String.intercalate.go acc ", " l = comma_join_spec (acc :: l) := by
  induction l with
  | nil => intro acc; rfl
  | cons b rest ih =>
    intro acc
    have hstep : String.intercalate.go acc ", " (b :: rest) =
        String.intercalate.go (acc ++ ", " ++ b) ", " rest := rfl
    rw [hstep, ih (acc ++ ", " ++ b)]
    have h1 : acc ++ ", " ++ b = (acc ++ ", ") ++ b := rfl
    rw [h1, comma_join_spec_append_head (acc ++ ", ") b rest]
    rfl

theorem intercalate_comma_eq (l : List String) :
    String.intercalate ", " l = comma_join_spec l := by
  cases l with
  | nil => rfl
  | cons a as => exact intercalate_go_eq as a

/-- Claim C7: in TSV export, format_list_column flattens a column of lists
    cell by cell: the output column has the same length, and each cell is the
    comma-joined string of the corresponding input cell's elements. -/
theorem format_list_column_correct (col : List (List String)) :
    (format_list_column col).length = col.length ∧
    ∀ i : Nat, (format_list_column col)[i]? = (col[i]?).map comma_join_spec := by
  constructor
  · simp [format_list_column]
  · intro i
    simp only [format_list_column, List.getElem?_map]
    have hg : (fun x : List String => String.intercalate ", " (x.map (fun i => toString i))) =
        comma_join_spec := by
      funext x
      rw [show (fun i : String => toString i) = fun i : String => i from rfl]
      rw [show List.map (fun i : String => i) x = x from List.map_id' x]
      rw [intercalate_comma_eq]
    rw [hg]

/-- Claim C8: read_file returns the empty list, without failing, when the
    path is None or names no existing file; when the file exists it returns
    its lines with trailing whitespace stripped (each raw line decomposes as
    the returned line followed by whitespace only). -/
theorem read_file_correct (fs : FileSystem) :
    read_file none fs = [] ∧
    (∀ p, fs p = none → read_file (some p) fs = []) ∧
    (∀ p lines, fs p = some lines → read_file (some p) fs = lines.map pyRstrip) ∧
    (∀ s : String,
       s.data = (pyRstrip s).data ++ (s.data.reverse.takeWhile isPyWhitespace).reverse ∧
       ∀ c ∈ s.data.reverse.takeWhile isPyWhitespace, isPyWhitespace c = true) := by
  refine ⟨rfl, ?_, ?_, ?_⟩
  · intro p h; simp [read_file, h]
  · intro p lines h; simp [read_file, h]
  · intro s
    refine ⟨?_, fun c hc => List.mem_takeWhile_imp hc⟩
    calc s.data = s.data.reverse.reverse := (List.reverse_reverse _).symm
      _ = (List.takeWhile isPyWhitespace s.data.reverse ++
            List.dropWhile isPyWhitespace s.data.reverse).reverse := by
            rw [List.takeWhile_append_dropWhile]
      _ = (List.dropWhile isPyWhitespace s.data.reverse).reverse ++
            (List.takeWhile isPyWhitespace s.data.reverse).reverse := by
            rw [List.reverse_append]
      _ = (pyRstrip s).data ++ (s.data.reverse.takeWhile isPyWhitespace).reverse := rfl

theorem read_file_correct_witness :
    read_file (some "categories") exampleFS = ["genomics", "proteomics"] ∧
    read_file (some "missing") exampleFS = [] ∧
    read_file none exampleFS = [] := by
  refine ⟨?_, ?_, (read_file_correct exampleFS).1⟩
  · rw [(read_file_correct exampleFS).2.2.1 "categories" ["genomics  ", "proteomics\t"]
      (by decide)]
    decide
  · exact (read_file_correct exampleFS).2.1 "missing" (by decide)

theorem collectIds_map_some (ids : List (List Char)) :
    collectIds (ids.map some) = some ids := by
  induction ids with
  | nil => rfl
  | cons hd tl ih => simp [collectIds, ih]

theorem collectIds_of_none_mem (tds : List (Option (List Char))) (h : none ∈ tds) :
    collectIds tds = none := by
  induction tds with
  | nil => cases h
  | cons hd tl ih =>
    cases hd with
    | none => rfl
    | some tid =>
      have htl : none ∈ tl := by
        cases h with
        | tail _ h' => exact h'
      simp [collectIds, ih htl]

/-- Claim C3: a failed installed-tools query (unreachable server or HTTP
    error, malformed JSON body, or an entry without an id field) makes
    get_all_installed_tool_ids_on_server return the empty list instead of
    raising, so no tool id is ever reported installed for that server; a
    successful query returns every id. -/
theorem get_all_installed_tool_ids_on_server_correct :
    (get_all_installed_tool_ids_on_server ServerQueryResult.unreachable = [] ∧
     get_all_installed_tool_ids_on_server ServerQueryResult.badJson = []) ∧
    (∀ tid : List Char,
       tid ∉ get_all_installed_tool_ids_on_server ServerQueryResult.unreachable ∧
       tid ∉ get_all_installed_tool_ids_on_server ServerQueryResult.badJson) ∧
    (∀ ids : List (List Char),
       get_all_installed_tool_ids_on_server (ServerQueryResult.ok (ids.map some)) = ids) ∧
    (∀ tds : List (Option (List Char)), none ∈ tds →
       get_all_installed_tool_ids_on_server (ServerQueryResult.ok tds) = []) := by
  refine ⟨⟨rfl, rfl⟩, fun tid => ⟨by simp [get_all_installed_tool_ids_on_server],
    by simp [get_all_installed_tool_ids_on_server]⟩, ?_, ?_⟩
  · intro ids
    simp [get_all_installed_tool_ids_on_server, collectIds_map_some]
  · intro tds h
    simp [get_all_installed_tool_ids_on_server, collectIds_of_none_mem tds h]

theorem get_all_installed_tool_ids_on_server_witness :
    get_all_installed_tool_ids_on_server
        (ServerQueryResult.ok [some "a1".toList, none]) = [] ∧
    get_all_installed_tool_ids_on_server
        (ServerQueryResult.ok [some "a1".toList, some "b2".toList]) =
      ["a1".toList, "b2".toList] := by
  constructor
  · exact get_all_installed_tool_ids_on_server_correct.2.2.2
      [some "a1".toList, none] (by decide)
  · have e : [some "a1".toList, some "b2".toList] =
        (["a1".toList, "b2".toList]).map some := rfl
    rw [e]
    exact get_all_installed_tool_ids_on_server_correct.2.2.1 ["a1".toList, "b2".toList]

/-- Claim C6: the curate stage partitions by the bio.tools linkage alone: a
    suite is in the without-bio.tools output exactly when it is in the input
    with an empty linkage (hence never in the with-bio.tools output), and in
    the with-bio.tools output exactly when its linkage is non-empty. -/
theorem curate_tools_correct (suites : List Suite) (s : Suite) :
    (s ∈ (curate_tools suites).1 ↔ s ∈ suites ∧ s.biotools_id = "") ∧
    (s ∈ (curate_tools suites).2 ↔ s ∈ suites ∧ s.biotools_id ≠ "") := by
  constructor <;> simp [curate_tools, List.mem_filter]

/-- Claim C4: the filter stage keeps a suite exactly when its ToolShed
    categories intersect the allow-list and either no status entry exists for
    its id or that entry's keep flag is true; in particular a suite whose
    status entry has keep=False is excluded even when its category matches. -/
theorem filter_tools_correct (suites : List Suite) (categories : List String)
    (status : List (String × StatusEntry)) (s : Suite) :
    (s ∈ filter_tools suites categories status ↔
       s ∈ suites ∧
       (∃ c ∈ s.toolshed_categories, c ∈ categories) ∧
       (statusLookup status s.suite_id = none ∨
        ∃ e, statusLookup status s.suite_id = some e ∧ e.keep = true)) ∧
    (∀ e, statusLookup status s.suite_id = some e → e.keep = false →
       s ∉ filter_tools suites categories status) := by
  have hiff : s ∈ filter_tools suites categories status ↔
      s ∈ suites ∧
      (∃ c ∈ s.toolshed_categories, c ∈ categories) ∧
      (statusLookup status s.suite_id = none ∨
       ∃ e, statusLookup status s.suite_id = some e ∧ e.keep = true) := by
    simp only [filter_tools, List.mem_filter, Bool.and_eq_true, List.any_eq_true,
      decide_eq_true_eq]
    cases h : statusLookup status s.suite_id with
    | none =>
      constructor
      · rintro ⟨hmem, hcat, -⟩
        exact ⟨hmem, by
          obtain ⟨c, hc, c2, hc2, he⟩ := hcat
          exact ⟨c, hc, he ▸ hc2⟩, Or.inl rfl⟩
      · rintro ⟨hmem, ⟨c, hc, hcin⟩, -⟩
        exact ⟨hmem, ⟨c, hc, c, hcin, rfl⟩, rfl⟩
    | some e =>
      constructor
      · rintro ⟨hmem, hcat, hkeep⟩
        refine ⟨hmem, by
          obtain ⟨c, hc, c2, hc2, he⟩ := hcat
          exact ⟨c, hc, he ▸ hc2⟩, Or.inr ⟨e, rfl, hkeep⟩⟩
      · rintro ⟨hmem, ⟨c, hc, hcin⟩, hst⟩
        refine ⟨hmem, ⟨c, hc, c, hcin, rfl⟩, ?_⟩
        rcases hst with h0 | ⟨e', he', hk'⟩
        · cases h0
        · cases he'; exact hk'
  refine ⟨hiff, ?_⟩
  intro e he hk hmem
  rcases hiff.mp hmem with ⟨-, -, hst⟩
  rcases hst with h0 | ⟨e', he', hk'⟩
  · rw [he] at h0; cases h0
  · rw [he] at he'
    have : e = e' := by cases he'; rfl
    rw [← this] at hk'
    rw [hk] at hk'
    cases hk'

theorem filter_tools_correct_witness :
    (Suite.mk "suiteA" ["genomics"] "") ∈
      filter_tools [Suite.mk "suiteA" ["genomics"] ""] ["genomics"] [] ∧
    (Suite.mk "suiteB" ["genomics"] "") ∉
      filter_tools [Suite.mk "suiteB" ["genomics"] ""] ["genomics"]
        [("suiteB", StatusEntry.mk false false)] := by
  constructor
  · exact (filter_tools_correct [Suite.mk "suiteA" ["genomics"] ""] ["genomics"] []
      (Suite.mk "suiteA" ["genomics"] "")).1.mpr
      ⟨by simp, ⟨"genomics", by simp, by simp⟩, Or.inl (by decide)⟩
  · exact (filter_tools_correct [Suite.mk "suiteB" ["genomics"] ""] ["genomics"]
      [("suiteB", StatusEntry.mk false false)] (Suite.mk "suiteB" ["genomics"] "")).2
      (StatusEntry.mk false false) (by decide) rfl

/-- Claim C2: get_request_json with its default arguments (retries=3,
    delay=2.0) returns the JSON body of the first successful attempt; a
    transient connection error is retried after a fixed 2-second sleep, for
    at most 3 attempts in total, and the third consecutive connection error
    raises ConnectionError with exactly two sleeps performed; any other
    request error exits fatally at once, with no further attempt or sleep;
    a non-JSON body raises ValueError at once. -/
theorem get_request_json_correct (net : Nat → ReqOutcome) :
    (∀ j, net 0 = ReqOutcome.success j →
       get_request_json net 3 2 = (GetResult.ok j, [])) ∧
    (∀ j, net 0 = ReqOutcome.connError → net 1 = ReqOutcome.success j →
       get_request_json net 3 2 = (GetResult.ok j, [2])) ∧
    (∀ j, net 0 = ReqOutcome.connError → net 1 = ReqOutcome.connError →
       net 2 = ReqOutcome.success j →
       get_request_json net 3 2 = (GetResult.ok j, [2, 2])) ∧
    (net 0 = ReqOutcome.connError → net 1 = ReqOutcome.connError →
       net 2 = ReqOutcome.connError →
       get_request_json net 3 2 = (GetResult.connErrorRaised, [2, 2])) ∧
    (net 0 = ReqOutcome.reqError →
       get_request_json net 3 2 = (GetResult.systemExit, [])) ∧
    (net 0 = ReqOutcome.connError → net 1 = ReqOutcome.reqError →
       get_request_json net 3 2 = (GetResult.systemExit, [2])) ∧
    (net 0 = ReqOutcome.connError → net 1 = ReqOutcome.connError →
       net 2 = ReqOutcome.reqError →
       get_request_json net 3 2 = (GetResult.systemExit, [2, 2])) ∧
    (net 0 = ReqOutcome.jsonError →
       get_request_json net 3 2 = (GetResult.valueErrorRaised, [])) := by
  refine ⟨?_, ?_, ?_, ?_, ?_, ?_, ?_, ?_⟩ <;>
    intros <;>
    simp_all [get_request_json, get_request_json_loop]

theorem get_request_json_correct_witness :
    get_request_json (fun _ => ReqOutcome.connError) 3 2 =
      (GetResult.connErrorRaised, [2, 2]) :=
  (get_request_json_correct (fun _ => ReqOutcome.connError)).2.2.2.1 rfl rfl rfl

theorem keyLe_total : ∀ x y : List Char, keyLe x y = true ∨ keyLe y x = true := by
  intro x
  induction x with
  | nil => intro y; left; rfl
  | cons a as ih =>
    intro y
    cases y with
    | nil => right; rfl
    | cons b bs =>
      by_cases hab : a = b
      · subst hab
        rcases ih bs with h | h
        · left; simp [keyLe, h]
        · right; simp [keyLe, h]
      · rcases lt_or_gt_of_ne hab with h | h
        · left; simp [keyLe, hab, h]
        · right; simp [keyLe, Ne.symm hab, h]

theorem keyLe_trans : ∀ x y z : List Char,
    keyLe x y = true → keyLe y z = true → keyLe x z = true := by
  intro x
  induction x with
  | nil => intros; rfl
  | cons a as ih =>
    intro y z hxy hyz
    cases y with
    | nil => simp [keyLe] at hxy
    | cons b bs =>
      cases z with
      | nil => simp [keyLe] at hyz
      | cons c cs =>
        by_cases hab : a = b <;> by_cases hbc : b = c
        · subst hab; subst hbc
          simp only [keyLe, if_pos rfl] at hxy hyz ⊢
          exact ih bs cs hxy hyz
        · subst hab
          simp only [keyLe, if_pos rfl, if_neg hbc, decide_eq_true_eq] at hyz ⊢
          have hac : a ≠ c := hbc
          simp [keyLe, hac, hyz]
        · subst hbc
          simp only [keyLe, if_neg hab, decide_eq_true_eq] at hxy
          have hac : a ≠ b := hab
          simp [keyLe, hac, hxy]
        · simp only [keyLe, if_neg hab, if_neg hbc, decide_eq_true_eq] at hxy hyz
          have hac : a < c := lt_trans hxy hyz
          simp [keyLe, ne_of_lt hac, hac]

theorem sortDictKeys_perm (d : SuiteDict) : (sortDictKeys d).Perm d :=
  List.perm_insertionSort _ d

theorem sortDictKeys_sorted (d : SuiteDict) :
    List.Sorted (fun a b : List Char × AttrVal => keyLe a.1 b.1 = true) (sortDictKeys d) := by
  haveI : IsTotal (List Char × AttrVal) (fun a b => keyLe a.1 b.1 = true) :=
    ⟨fun a b => keyLe_total a.1 b.1⟩
  haveI : IsTrans (List Char × AttrVal) (fun a b => keyLe a.1 b.1 = true) :=
    ⟨fun a b c => keyLe_trans a.1 b.1 c.1⟩
  exact List.sorted_insertionSort _ d

/-- Claim C5: exporting a suite collection with export_to_json (with its
    default sort_keys=True) and reloading the file with load_json yields a
    collection equal to the original up to key order: entry by entry, the
    reloaded dictionary is a permutation of the original one, and every
    exported dictionary has its keys in sorted order (the dump is key-sorted
    and deterministic, and list values stay lists). -/
theorem export_to_json_load_json_roundtrip (data : List SuiteDict) :
    List.Forall₂ (fun d1 d2 : SuiteDict => d1.Perm d2)
      (load_json (export_to_json data true)) data ∧
    ∀ d ∈ load_json (export_to_json data true),
      List.Sorted (fun a b : List Char × AttrVal => keyLe a.1 b.1 = true) d := by
  constructor
  · show List.Forall₂ _ (data.map sortDictKeys) data
    induction data with
    | nil => exact List.Forall₂.nil
    | cons hd tl ih => exact List.Forall₂.cons (sortDictKeys_perm hd) ih
  · intro d hd
    have hd' : d ∈ data.map sortDictKeys := hd
    rw [List.mem_map] at hd'
    obtain ⟨d', -, rfl⟩ := hd'
    exact sortDictKeys_sorted d'

theorem export_to_json_load_json_roundtrip_witness :
    sortDictKeys exampleDict ∈ load_json (export_to_json [exampleDict] true) ∧
    List.Sorted (fun a b : List Char × AttrVal => keyLe a.1 b.1 = true)
      (sortDictKeys exampleDict) := by
  have hmem : sortDictKeys exampleDict ∈ load_json (export_to_json [exampleDict] true) := by
    decide
  exact ⟨hmem, (export_to_json_load_json_roundtrip [exampleDict]).2
    (sortDictKeys exampleDict) hmem⟩

theorem any_map_general {α β : Type} (f : α → β) (l : List α) (p : β → Bool) :
    (l.map f).any p = l.any (fun a => p (f a)) := by
  induction l with
  | nil => rfl
  | cons hd tl ih => simp [ih]

/-- Claim C1: over an ontology in which every term resolves to a class
    labelled by that term and no class is its own subclass,
    reduce_ontology_terms keeps exactly the terms for which no other term of
    the set resolves to one of their subclasses (superclasses with a present
    subclass are dropped, everything else is kept), and the empty list is
    returned unchanged (both sides of the equation are then empty). -/
theorem reduce_ontology_terms_correct {C : Type} [DecidableEq C] (terms : List String)
    (ont : Ontology C) (f : String → C)
    (hres : ∀ t, ont.search_one t = some (f t))
    (hlab : ∀ t, ont.label (f t) = t)
    (hirr : ∀ c, c ∉ ont.subclasses c) :
    reduce_ontology_terms terms ont =
      terms.filter (fun t =>
        ! terms.any (fun t2 => decide (t2 ≠ t) &&
            decide (f t2 ∈ ont.subclasses (f t)))) := by
  have hcheck : check_classes_of terms ont = terms.map f := by
    unfold check_classes_of
    rw [List.map_congr_left (fun t _ => hres t), List.filterMap_map]
    exact congrFun (List.filterMap_eq_map f) terms
  by_cases hE : terms.isEmpty
  · rw [List.isEmpty_iff.mp hE]; rfl
  · unfold reduce_ontology_terms
    rw [if_neg hE, hcheck, List.filter_map, List.map_map]
    have hid : (fun cla => ont.label cla) ∘ f = fun t : String => t :=
      funext (fun t => hlab t)
    rw [hid, List.map_id']
    apply List.filter_congr
    intro t _
    show (! (ont.subclasses (f t)).any (fun subcla =>
        (terms.map f).any (fun cla2 => decide (subcla = cla2)))) = _
    have hbody : ((ont.subclasses (f t)).any (fun subcla =>
        (terms.map f).any (fun cla2 => decide (subcla = cla2)))) =
        terms.any (fun t2 => decide (t2 ≠ t) &&
          decide (f t2 ∈ ont.subclasses (f t))) := by
      rw [Bool.eq_iff_iff]
      simp only [List.any_eq_true, decide_eq_true_eq, Bool.and_eq_true, any_map_general]
      constructor
      · rintro ⟨sub, hsub, t2, ht2, hEq⟩
        refine ⟨t2, ht2, ?_, hEq ▸ hsub⟩
        intro hteq
        rw [hteq] at hEq
        rw [hEq] at hsub
        exact hirr (f t) hsub
      · rintro ⟨t2, ht2, _, hmem⟩
        exact ⟨f t2, hmem, t2, ht2, rfl⟩
    rw [hbody]

theorem reduce_ontology_terms_witness :
    reduce_ontology_terms ["A", "B"] exampleOntology = ["B"] := by
  have hirr : ∀ c : String, c ∉ exampleOntology.subclasses c := by
    intro c
    show c ∉ (if c = "A" then ["B"] else [])
    by_cases hc : c = "A"
    · subst hc; simp
    · simp [hc]
  have h := reduce_ontology_terms_correct ["A", "B"] exampleOntology (fun t => t)
    (fun t => rfl) (fun t => rfl) hirr
  rw [h]
  decide

theorem pySplit_ne_nil (c : Char) (l : List Char) : pySplit c l ≠ [] := by
  induction l with
  | nil => simp [pySplit]
  | cons x xs ih =>
    by_cases hx : x = c
    · simp [pySplit, hx]
    · simp only [pySplit, if_neg hx]
      cases h : pySplit c xs with
      | nil => simp
      | cons y ys => simp

theorem length_pySplit (c : Char) (l : List Char) :
    (pySplit c l).length = l.count c + 1 := by
  induction l with
  | nil => simp [pySplit]
  | cons x xs ih =>
    by_cases hx : x = c
    · subst hx
      simp [pySplit, List.count_cons, ih]
    · simp only [pySplit, if_neg hx]
      cases h : pySplit c xs with
      | nil => exact absurd h (pySplit_ne_nil c xs)
      | cons y ys =>
        have hxc : (x == c) = false := by
          simp [hx]
        simp only [List.length_cons, List.count_cons, hxc, if_neg]
        rw [← List.length_cons y ys, ← h, ih]
        simp

theorem pySplit_no_sep (c : Char) (l : List Char) (h : c ∉ l) : pySplit c l = [l] := by
  induction l with
  | nil => rfl
  | cons x xs ih =>
    have hx : x ≠ c := fun he => h (he ▸ List.mem_cons_self x xs)
    have hxs : c ∉ xs := fun hm => h (List.mem_cons_of_mem _ hm)
    simp only [pySplit, if_neg hx, ih hxs]

theorem pySplit_chunk (c : Char) (l r : List Char) (h : c ∉ l) :
    pySplit c (l ++ c :: r) = l :: pySplit c r := by
  induction l with
  | nil => simp [pySplit]
  | cons x xs ih =>
    have hx : x ≠ c := fun he => h (he ▸ List.mem_cons_self x xs)
    have hxs : c ∉ xs := fun hm => h (List.mem_cons_of_mem _ hm)
    simp only [List.cons_append, pySplit, if_neg hx]
    rw [show xs.append (c :: r) = xs ++ c :: r from rfl, ih hxs]

/-- Claim C9: shorten_tool_id returns a tool id without the substring
    "toolshed" unchanged; an id containing "toolshed" and at least one "/"
    is shortened to the second-to-last "/"-separated segment (the split has
    at least two parts, and the result is entry length-2 of the split). -/
theorem shorten_tool_id_correct (tool : List Char) :
    (¬ toolshedChars <:+: tool → shorten_tool_id tool = some tool) ∧
    (toolshedChars <:+: tool → '/' ∈ tool →
       2 ≤ (pySplit '/' tool).length ∧
       shorten_tool_id tool =
         (pySplit '/' tool).get? ((pySplit '/' tool).length - 2)) := by
  constructor
  · intro h; simp [shorten_tool_id, h]
  · intro hin hmem
    have hlen : 2 ≤ (pySplit '/' tool).length := by
      rw [length_pySplit]
      have hc : 0 < tool.count '/' := List.count_pos_iff.mpr hmem
      omega
    refine ⟨hlen, ?_⟩
    simp only [shorten_tool_id, if_pos hin, pyNegIdx]
    rw [if_pos ⟨by omega, hlen⟩]

theorem shorten_tool_id_witness :
    shorten_tool_id "bwa_mem".toList = some "bwa_mem".toList ∧
    (2 ≤ (pySplit '/' "toolshed.g2/repos/iuc/snpeff/snpEff/4.3".toList).length ∧
     shorten_tool_id "toolshed.g2/repos/iuc/snpeff/snpEff/4.3".toList =
       (pySplit '/' "toolshed.g2/repos/iuc/snpeff/snpEff/4.3".toList).get?
         ((pySplit '/' "toolshed.g2/repos/iuc/snpeff/snpEff/4.3".toList).length - 2)) ∧
    shorten_tool_id "toolshed.g2/repos/iuc/snpeff/snpEff/4.3".toList =
      some "snpEff".toList :=
  ⟨(shorten_tool_id_correct _).1 (by decide),
   (shorten_tool_id_correct _).2 (by decide) (by decide),
   by decide⟩

theorem single_suffix_iff (c : Char) (l : List Char) :
    [c] <:+ l ↔ l.getLast? = some c := by
  constructor
  · rintro ⟨t, rfl⟩
    exact List.getLast?_concat t
  · intro h
    obtain ⟨ys, rfl⟩ := List.getLast?_eq_some_iff.mp h
    exact ⟨ys, rfl⟩

theorem suffix_of_suffix_length_le {α : Type} {l1 l2 l3 : List α}
    (h1 : l1 <:+ l3) (h2 : l2 <:+ l3) (h : l1.length ≤ l2.length) : l1 <:+ l2 := by
  rw [← List.reverse_prefix] at h1 h2 ⊢
  exact List.prefix_of_prefix_length_le h1 h2 (by simpa using h)

theorem suffix_chunk_of_not_mem {s l r : List Char} {c : Char} (hc : c ∉ s)
    (h : s <:+ l ++ c :: r) : s <:+ r := by
  by_cases hlen : s.length ≤ r.length
  · have hr : r <:+ l ++ c :: r :=
      List.IsSuffix.trans ⟨[c], rfl⟩ (List.suffix_append l (c :: r))
    exact suffix_of_suffix_length_le h hr hlen
  · push_neg at hlen
    have hcr : (c :: r) <:+ s :=
      suffix_of_suffix_length_le (List.suffix_append l (c :: r)) h
        (by simp; omega)
    exact absurd (List.IsSuffix.mem (List.mem_cons_self c r) hcr) hc

theorem getLast?_append_right (pre rep : List Char) (hrn : rep ≠ []) :
    (pre ++ rep).getLast? = rep.getLast? := by
  rcases List.eq_nil_or_concat rep with rfl | ⟨ys, b, rfl⟩
  · exact absurd rfl hrn
  · rw [List.concat_eq_append, ← List.append_assoc]
    rw [List.getLast?_concat, List.getLast?_concat]

theorem not_slash_suffix_base (owner repo : List Char) (hrw : '/' ∉ repo)
    (hrn : repo ≠ []) :
    ¬ ['/'] <:+ (githubUrlStart ++ (owner ++ '/' :: repo)) := by
  rw [single_suffix_iff]
  have e : githubUrlStart ++ (owner ++ '/' :: repo) =
      (githubUrlStart ++ (owner ++ ['/'])) ++ repo := by
    simp [List.append_assoc]
  rw [e, getLast?_append_right _ _ hrn]
  intro hlast
  obtain ⟨ys, rfl⟩ := List.getLast?_eq_some_iff.mp hlast
  exact hrw (by simp)

theorem not_git_suffix_base (owner repo : List Char) (hrg : ¬ gitExt <:+ repo) :
    ¬ gitExt <:+ (githubUrlStart ++ (owner ++ '/' :: repo)) := by
  intro h
  have e : githubUrlStart ++ (owner ++ '/' :: repo) =
      (githubUrlStart ++ owner) ++ '/' :: repo := by
    simp [List.append_assoc]
  rw [e] at h
  exact hrg (suffix_chunk_of_not_mem (by decide) h)

theorem pySplit_github_base (owner repo : List Char) (how : '/' ∉ owner)
    (hrw : '/' ∉ repo) :
    pySplit '/' (githubUrlStart ++ (owner ++ '/' :: repo)) =
      ["https:".toList, [], "github.com".toList, owner, repo] := by
  have e : githubUrlStart ++ (owner ++ '/' :: repo) =
      "https:".toList ++ '/' :: ([] ++ '/' :: ("github.com".toList ++ '/' ::
        (owner ++ '/' :: repo))) := rfl
  rw [e, pySplit_chunk '/' "https:".toList _ (by decide)]
  rw [pySplit_chunk '/' [] _ (by decide)]
  rw [pySplit_chunk '/' "github.com".toList _ (by decide)]
  rw [pySplit_chunk '/' owner _ how]
  rw [pySplit_no_sep '/' repo hrw]

theorem githubSegments_base (owner repo : List Char) (how : '/' ∉ owner)
    (hrw : '/' ∉ repo) :
    githubSegments (githubUrlStart ++ (owner ++ '/' :: repo)) = some (owner, repo) := by
  unfold githubSegments
  rw [pySplit_github_base owner repo how hrw]
  simp [pyNegIdx]

/-- Claim C10: get_github_repo raises ValueError (none) for every URL that
    does not start with "https://github.com/"; for URLs of that shape it
    strips one trailing "/" and then a trailing ".git" before taking the last
    two "/"-separated segments as owner and repository, as shown on all four
    combinations of the optional trailing ".git" and "/". -/
theorem get_github_repo_correct (url owner repo : List Char)
    (how : '/' ∉ owner) (hrw : '/' ∉ repo) (hrn : repo ≠ [])
    (hrg : ¬ gitExt <:+ repo) :
    (¬ githubUrlStart <+: url → get_github_repo url = none) ∧
    get_github_repo (githubUrlStart ++ (owner ++ '/' :: repo)) =
      some (owner, repo) ∧
    get_github_repo ((githubUrlStart ++ (owner ++ '/' :: repo)) ++ ['/']) =
      some (owner, repo) ∧
    get_github_repo (githubUrlStart ++ (owner ++ '/' :: (repo ++ gitExt))) =
      some (owner, repo) ∧
    get_github_repo ((githubUrlStart ++ (owner ++ '/' :: (repo ++ gitExt))) ++ ['/']) =
      some (owner, repo) := by
  have hB1 : stripSlash (githubUrlStart ++ (owner ++ '/' :: repo)) =
      githubUrlStart ++ (owner ++ '/' :: repo) := by
    unfold stripSlash
    rw [if_neg (not_slash_suffix_base owner repo hrw hrn)]
  have hB2 : stripGit (githubUrlStart ++ (owner ++ '/' :: repo)) =
      githubUrlStart ++ (owner ++ '/' :: repo) := by
    unfold stripGit
    rw [if_neg (not_git_suffix_base owner repo hrg)]
  have hseg := githubSegments_base owner repo how hrw
  have e3 : githubUrlStart ++ (owner ++ '/' :: (repo ++ gitExt)) =
      (githubUrlStart ++ (owner ++ '/' :: repo)) ++ gitExt := by
    simp [List.append_assoc]
  have hs3 : stripSlash ((githubUrlStart ++ (owner ++ '/' :: repo)) ++ gitExt) =
      (githubUrlStart ++ (owner ++ '/' :: repo)) ++ gitExt := by
    unfold stripSlash
    rw [if_neg ?hns]
    case hns =>
      rw [single_suffix_iff, getLast?_append_right _ _ (by decide)]
      decide
  have hg3 : stripGit ((githubUrlStart ++ (owner ++ '/' :: repo)) ++ gitExt) =
      githubUrlStart ++ (owner ++ '/' :: repo) := by
    unfold stripGit
    rw [if_pos ⟨githubUrlStart ++ (owner ++ '/' :: repo), rfl⟩]
    apply List.take_left'
    have h4 : gitExt.length = 4 := rfl
    simp [List.length_append, h4]
    omega
  refine ⟨?_, ?_, ?_, ?_, ?_⟩
  · intro h
    unfold get_github_repo
    rw [if_neg h]
  · unfold get_github_repo
    rw [if_pos (List.prefix_append _ _), hB1, hB2, hseg]
  · unfold get_github_repo
    rw [if_pos (List.IsPrefix.trans (List.prefix_append _ _) (List.prefix_append _ _))]
    have hs2 : stripSlash ((githubUrlStart ++ (owner ++ '/' :: repo)) ++ ['/']) =
        githubUrlStart ++ (owner ++ '/' :: repo) := by
      unfold stripSlash
      rw [if_pos ⟨githubUrlStart ++ (owner ++ '/' :: repo), rfl⟩, List.dropLast_concat]
    rw [hs2, hB2, hseg]
  · unfold get_github_repo
    rw [e3]
    rw [if_pos (List.IsPrefix.trans (List.prefix_append _ _) (List.prefix_append _ _))]
    rw [hs3, hg3, hseg]
  · unfold get_github_repo
    rw [e3]
    rw [if_pos (List.IsPrefix.trans (List.prefix_append _ _)
      (List.IsPrefix.trans (List.prefix_append _ _) (List.prefix_append _ _)))]
    have hs4 : stripSlash (((githubUrlStart ++ (owner ++ '/' :: repo)) ++ gitExt) ++ ['/']) =
        (githubUrlStart ++ (owner ++ '/' :: repo)) ++ gitExt := by
      unfold stripSlash
      rw [if_pos ⟨(githubUrlStart ++ (owner ++ '/' :: repo)) ++ gitExt, rfl⟩,
        List.dropLast_concat]
    rw [hs4, hg3, hseg]

theorem get_github_repo_witness :
    get_github_repo "https://github.com/galaxyproject/tools-iuc.git".toList =
      some ("galaxyproject".toList, "tools-iuc".toList) ∧
    get_github_repo "http://example.com/a/b".toList = none := by
  constructor
  · have h := (get_github_repo_correct "x".toList "galaxyproject".toList
      "tools-iuc".toList (by decide) (by decide) (by decide) (by decide)).2.2.2.1
    have e : "https://github.com/galaxyproject/tools-iuc.git".toList =
        githubUrlStart ++ ("galaxyproject".toList ++ '/' :: ("tools-iuc".toList ++ gitExt)) :=
      by decide
    rw [e]
    exact h
  · exact (get_github_repo_correct "http://example.com/a/b".toList "o".toList "r".toList
      (by decide) (by decide) (by decide) (by decide)).1 (by decide)

end GalaxyCodex
